/-
Verification of the lua-qpack binding (src/lua_qpack.c) against its
natural-language specification.

The binding converts between Lua values and the QPack binary format.
The external qpack library (qpack.h, not part of this repository) is
modelled at the token level: the wire is a list of typed tokens, the
packer appends tokens, and qp_next pops the next token (returning the
END marker on an exhausted stream).  The numeric values of the token
type enumeration follow the qpack library's qp_types enum, consistent
with the tag table in section 6 of the spec
(END=0, ERR=1, RAW=2, HOOK=3, INT64=4, DOUBLE=5, ARRAY0..ARRAY5=6..11,
MAP0..MAP5=12..17, TRUE=18, FALSE=19, NULL=20, ARRAY_OPEN=21,
MAP_OPEN=22, ARRAY_CLOSE=23, MAP_CLOSE=24).

Lua values are modelled as a closed sum.  Lua floats are modelled as
exact rationals; tables are modelled as their entry list in iteration
order (lua_next enumerates exactly these entries).  Light userdata
appears only as the NULL pointer (the module's qpack.null sentinel);
other light userdata, full userdata, functions and threads are
collapsed into the unserialisable constructor `other`.
-/
import Mathlib

set_option linter.unusedVariables false

/-- A QPack wire token, as produced by the qpack packer and consumed by
qp_next.  Scalar tokens carry their payload inline.  `arr n` / `mp n`
are the fixed-size container tags ARRAY0..ARRAY5 / MAP0..MAP5. -/
inductive Token where
  | int64 (n : Int)
  | double (q : ℚ)
  | raw (bytes : List Nat)
  | qp_true
  | qp_false
  | null
  | arr (n : Fin 6)
  | mp (n : Fin 6)
  | arrayOpen
  | arrayClose
  | mapOpen
  | mapClose
deriving DecidableEq, Repr

/-- Numeric value of a token's type tag, following the qpack library's
qp_types enumeration (see the header comment). -/
def qp_tp : Token → Int
  | .int64 _ => 4
  | .double _ => 5
  | .raw _ => 2
  | .arr n => 6 + (n : Int)
  | .mp n => 12 + (n : Int)
  | .qp_true => 18
  | .qp_false => 19
  | .null => 20
  | .arrayOpen => 21
  | .mapOpen => 22
  | .arrayClose => 23
  | .mapClose => 24

/-- The current object after a qp_next call: either a token or the END
marker (qp_next on an exhausted stream).  END has type tag 0. -/
def qp_tp_obj : Option Token → Int
  | none => 0
  | some t => qp_tp t

/-- qp_next: read the next token from the stream, or END (`none`) when
the stream is exhausted. -/
def qp_next (s : List Token) : Option Token × List Token :=
  match s with
  | [] => (none, [])
  | t :: rest => (some t, rest)

/-- A Lua value as seen by the binding.  Tables are their entry list in
iteration order.  `num` is the float subtype (modelled as an exact
rational), `int` the integer subtype.  `lightuserdata_null` is the
NULL light userdata used as qpack.null.  `other` collapses the
unserialisable types (function, full userdata, thread, non-NULL light
userdata). -/
inductive LuaValue where
  | nil
  | boolean (b : Bool)
  | int (n : Int)
  | num (q : ℚ)
  | str (s : List Nat)
  | lightuserdata_null
  | table (entries : List (LuaValue × LuaValue))
  | other

/-- lua_rawequal.  Numbers compare across subtypes by mathematical
value; strings by contents.  Tables (and the other reference types)
compare by identity; every table compared by this binding is freshly
allocated and therefore distinct from any other value, so the model
returns false for them. -/
def lua_rawequal : LuaValue → LuaValue → Bool
  | .nil, .nil => true
  | .boolean a, .boolean b => a == b
  | .int a, .int b => a == b
  | .int a, .num q => (a : ℚ) == q
  | .num q, .int a => q == (a : ℚ)
  | .num p, .num q => p == q
  | .str s, .str t => s == t
  | .lightuserdata_null, .lightuserdata_null => true
  | _, _ => false

/-- Raw table read (lua_geti / lua_rawget on a plain table): the value
stored under a key equal to `k`, or nil when absent. -/
def lua_rawget (entries : List (LuaValue × LuaValue)) (k : LuaValue) : LuaValue :=
  match entries with
  | [] => .nil
  | (k', v) :: rest => if lua_rawequal k' k then v else lua_rawget rest k

/-- Raw table write (lua_rawset / lua_rawseti): setting nil removes the
key, setting an existing key replaces its value in place, and setting a
fresh key appends the pair at the end of the iteration order. -/
def lua_rawset (t : List (LuaValue × LuaValue)) (k v : LuaValue) :
    List (LuaValue × LuaValue) :=
  match v with
  | .nil => t.filter (fun p => !lua_rawequal p.1 k)
  | _ =>
    if t.any (fun p => lua_rawequal p.1 k) then
      t.map (fun p => if lua_rawequal p.1 k then (p.1, v) else p)
    else t ++ [(k, v)]

/-- The configuration userdata shared by encode and decode
(qpack_config_t in the source). -/
structure qpack_config_t where
  encode_max_depth : Int
  decode_max_depth : Int
  encode_empty_table_as_array : Bool
deriving DecidableEq, Repr

/-- Default configuration installed by qpack_create_config. -/
def default_config : qpack_config_t :=
  { encode_max_depth := 1000
    decode_max_depth := 1000
    encode_empty_table_as_array := false }

/-- Errors raised (via luaL_error) on the encode path. -/
inductive EncodeError where
  /-- Cannot serialise, excessive nesting (depth). -/
  | excessiveNesting (depth : Int)
  /-- Cannot serialise: table key must be a number or string. -/
  | invalidKey
  /-- Cannot serialise: type not supported. -/
  | unsupportedType
deriving DecidableEq, Repr

/-- The loop body of lua_array_length: scan the entries, tracking the
largest positive-integer key `maxv` and the entry count `items`
(`items` is computed by the source but never used by it).  A key that
is not a number, is zero (a zero double is falsy in the C condition
`(k = lua_tonumber(l, -2))`), is not integral, or is below 1 makes the
scan return -1 (not a pure array).  Otherwise the scan returns `maxv`. -/
def lua_array_length_go (maxv items : Int) :
    List (LuaValue × LuaValue) → Int
  | [] => maxv
  | (k, _) :: rest =>
    match k with
    | .int i =>
      if i = 0 then -1
      else if 1 ≤ i then
        lua_array_length_go (if maxv < i then i else maxv) (items + 1) rest
      else -1
    | .num q =>
      if q = 0 then -1
      else if (⌊q⌋ : ℚ) = q ∧ 1 ≤ q then
        lua_array_length_go (if (maxv : ℚ) < q then ⌊q⌋ else maxv) (items + 1) rest
      else -1
    | _ => -1

/-- lua_array_length: -1 when the table is not a pure array, otherwise
the largest positive-integer key (the source returns `max`, not the
entry count). -/
def lua_array_length (entries : List (LuaValue × LuaValue)) : Int :=
  lua_array_length_go 0 0 entries

/-- The value returned by lua_rawget is nil or a stored value, so it is
structurally no larger than the entry list; used for the termination of
the encoder. -/
theorem lua_rawget_sizeOf (entries : List (LuaValue × LuaValue)) (k : LuaValue) :
    sizeOf (lua_rawget entries k) < 1 + sizeOf entries := by
  induction entries with
  | nil => simp [lua_rawget]
  | cons p rest ih =>
    obtain ⟨k', v⟩ := p
    by_cases h : lua_rawequal k' k = true
    · simp only [lua_rawget, h, if_true]
      simp only [List.cons.sizeOf_spec, Prod.mk.sizeOf_spec]
      omega
    · simp only [lua_rawget, h, if_false, Bool.false_eq_true]
      simp only [List.cons.sizeOf_spec]
      omega

mutual
/-- qpack_append_data: serialise one Lua value into tokens.  The depth
counter is incremented before descending into a table; the check
against encode_max_depth happens on the incremented depth
(lua_checkstack is modelled as always succeeding).  A table with a
positive array length, or an empty table under
encode_empty_table_as_array, is encoded as a bracketed array; any other
table is encoded as a bracketed map.  The __len metafield branch does
not arise for the plain tables of this model. -/
def qpack_append_data (cfg : qpack_config_t) (depth : Int) (v : LuaValue) :
    Except EncodeError (List Token) :=
  match v with
  | .str s => .ok [Token.raw (s ++ [0])]
  | .int n => .ok [Token.int64 n]
  | .num q => .ok [Token.double q]
  | .boolean b => .ok [if b then Token.qp_true else Token.qp_false]
  | .table entries =>
    if depth + 1 > cfg.encode_max_depth then
      .error (.excessiveNesting (depth + 1))
    else
      let len := lua_array_length entries
      if 0 < len ∨ (cfg.encode_empty_table_as_array ∧ len = 0) then
        do
          let body ← qpack_append_array cfg (depth + 1) entries 1 len
          .ok (Token.arrayOpen :: body ++ [Token.arrayClose])
      else
        do
          let body ← qpack_append_object cfg (depth + 1) entries
          .ok (Token.mapOpen :: body ++ [Token.mapClose])
  | .nil => .ok [Token.null]
  | .lightuserdata_null => .ok [Token.null]
  | .other => .error .unsupportedType
termination_by (sizeOf v, 1, 0)
decreasing_by
  all_goals simp_wf
  all_goals exact Prod.Lex.right _ (Prod.Lex.left _ _ (by omega))

/-- The loop of qpack_append_array: elements are read positionally with
lua_geti for i = 1..len (a missing index reads nil, which encodes as
NULL).  The ARRAY_OPEN / ARRAY_CLOSE brackets are emitted by the
caller around this loop. -/
def qpack_append_array (cfg : qpack_config_t) (depth : Int)
    (entries : List (LuaValue × LuaValue)) (i len : Int) :
    Except EncodeError (List Token) :=
  if h : i ≤ len then
    do
      let elem ← qpack_append_data cfg depth (lua_rawget entries (.int i))
      let rest ← qpack_append_array cfg depth entries (i + 1) len
      .ok (elem ++ rest)
  else
    .ok []
termination_by (1 + sizeOf entries, 0, (len + 1 - i).toNat)
decreasing_by
  · exact Prod.Lex.left _ _ (lua_rawget_sizeOf entries (LuaValue.int i))
  · simp_wf
    exact Prod.Lex.right _ (Prod.Lex.right _ (by omega))

/-- The loop of qpack_append_object: for each entry, a number key is
appended through qpack_append_number, a string key through
qpack_append_string, and any other key raises the invalid-key
exception; then the value is serialised.  The MAP_OPEN / MAP_CLOSE
brackets are emitted by the caller around this loop. -/
def qpack_append_object (cfg : qpack_config_t) (depth : Int)
    (entries : List (LuaValue × LuaValue)) :
    Except EncodeError (List Token) :=
  match entries with
  | [] => .ok []
  | (k, v) :: rest =>
    do
      let ktoks ←
        match k with
        | .int n => Except.ok [Token.int64 n]
        | .num q => Except.ok [Token.double q]
        | .str s => Except.ok [Token.raw (s ++ [0])]
        | _ => Except.error EncodeError.invalidKey
      let vtoks ← qpack_append_data cfg depth v
      let rtoks ← qpack_append_object cfg depth rest
      .ok (ktoks ++ vtoks ++ rtoks)
termination_by (1 + sizeOf entries, 0, 0)
decreasing_by
  all_goals simp_wf
  all_goals exact Prod.Lex.left _ _ (by omega)
end

/-- qpack_encode: serialise the argument starting at depth 0. -/
def qpack_encode (cfg : qpack_config_t) (v : LuaValue) :
    Except EncodeError (List Token) :=
  qpack_append_data cfg 0 v

/-- Errors raised (via luaL_error) on the decode path.  `outOfFuel` is
an artifact of the fuel-based model of the recursive reader; it never
occurs when the fuel is at least the length of the input stream
consumed (qpack_decode supplies the stream length as fuel). -/
inductive DecodeError where
  /-- QPACK cannot parse empty string. -/
  | emptyInput
  /-- QPACK error obj tp (END, ERR, ARRAY_CLOSE or MAP_CLOSE at value
  position). -/
  | errObj (tp : Int)
  | outOfFuel
deriving DecidableEq, Repr

mutual
/-- qpack_process_obj: turn the current object into a Lua value.  The
result carries the reconstructed value, the object as it stands after
the call (the C code mutates a single qp_obj_t in place, and the loops
of the fixed-size container cases re-read their bound from it), and
the remaining stream.  `arrInit` models the indeterminate initial
value of the uninitialised loop counter `int i = i` of the
ARRAY0..ARRAY5 case. -/
def qpack_process_obj (arrInit : Int) (fuel : Nat) (obj : Option Token)
    (s : List Token) :
    Except DecodeError (LuaValue × Option Token × List Token) :=
  match obj with
  | none => .error (.errObj 0)
  | some .arrayClose => .error (.errObj 23)
  | some .mapClose => .error (.errObj 24)
  | some (.int64 n) => .ok (.int n, obj, s)
  | some (.double q) => .ok (.num q, obj, s)
  | some .qp_true => .ok (.boolean true, obj, s)
  | some .qp_false => .ok (.boolean false, obj, s)
  | some (.raw bs) => .ok (.str (bs.take (bs.length - 1)), obj, s)
  | some .null => .ok (.lightuserdata_null, obj, s)
  | some (.arr n) =>
    match fuel with
    | 0 => .error .outOfFuel
    | g + 1 => qpack_arrN_loop arrInit g arrInit (some (.arr n)) [] s
  | some (.mp n) =>
    match fuel with
    | 0 => .error .outOfFuel
    | g + 1 => qpack_mapN_loop arrInit g 0 (some (.mp n)) [] s
  | some .arrayOpen =>
    match fuel with
    | 0 => .error .outOfFuel
    | g + 1 => qpack_array_open_loop arrInit g 1 [] s
  | some .mapOpen =>
    match fuel with
    | 0 => .error .outOfFuel
    | g + 1 => qpack_map_open_loop arrInit g [] s
termination_by fuel

/-- The ARRAY0..ARRAY5 loop: `for (int i = i; i <= obj->tp - QP_ARRAY0;
i++)`.  The counter starts at the indeterminate `arrInit` (the source
reads the uninitialised `i`), and the bound is re-evaluated from the
current object `cur`, which each iteration overwrites with the last
token consumed by the recursive call. -/
def qpack_arrN_loop (arrInit : Int) (fuel : Nat) (i : Int)
    (cur : Option Token) (acc : List (LuaValue × LuaValue))
    (s : List Token) :
    Except DecodeError (LuaValue × Option Token × List Token) :=
  if i ≤ qp_tp_obj cur - 6 then
    match fuel with
    | 0 => .error .outOfFuel
    | g + 1 =>
      let (o, s') := qp_next s
      do
        let (v, last, s'') ← qpack_process_obj arrInit g o s'
        qpack_arrN_loop arrInit g (i + 1) last (lua_rawset acc (.int i) v) s''
  else .ok (.table acc, cur, s)
termination_by fuel

/-- The MAP0..MAP5 loop: `for (int i = 0; i < obj->tp - QP_MAP0; i++)`
reading a key and a value per iteration; as in the array case the
bound is re-evaluated from the clobbered current object. -/
def qpack_mapN_loop (arrInit : Int) (fuel : Nat) (i : Int)
    (cur : Option Token) (acc : List (LuaValue × LuaValue))
    (s : List Token) :
    Except DecodeError (LuaValue × Option Token × List Token) :=
  if i < qp_tp_obj cur - 12 then
    match fuel with
    | 0 => .error .outOfFuel
    | g + 1 =>
      let (o1, s1) := qp_next s
      do
        let (k, _, s2) ← qpack_process_obj arrInit g o1 s1
        let (o2, s3) := qp_next s2
        let (v, last, s4) ← qpack_process_obj arrInit g o2 s3
        qpack_mapN_loop arrInit g (i + 1) last (lua_rawset acc k v) s4
  else .ok (.table acc, cur, s)
termination_by fuel

/-- The ARRAY_OPEN loop: `while (qp_next(up, obj) && obj->tp !=
QP_ARRAY_CLOSE)`; elements are stored at indices 1, 2, ...  A stream
that ends before the closing token terminates the loop silently
(qp_next returns END, which is falsy). -/
def qpack_array_open_loop (arrInit : Int) (fuel : Nat) (i : Int)
    (acc : List (LuaValue × LuaValue)) (s : List Token) :
    Except DecodeError (LuaValue × Option Token × List Token) :=
  match fuel with
  | 0 => .error .outOfFuel
  | g + 1 =>
    let (o, s') := qp_next s
    match o with
    | none => .ok (.table acc, none, s')
    | some .arrayClose => .ok (.table acc, some .arrayClose, s')
    | some t =>
      do
        let (v, _, s'') ← qpack_process_obj arrInit g (some t) s'
        qpack_array_open_loop arrInit g (i + 1) (lua_rawset acc (.int i) v) s''
termination_by fuel

/-- The MAP_OPEN loop: `while (qp_next(up, obj) && obj->tp !=
QP_MAP_CLOSE)` reading a key, then (with an unchecked qp_next, so a
missing value is reported by the recursive call seeing END) a value,
then storing the pair with lua_rawset. -/
def qpack_map_open_loop (arrInit : Int) (fuel : Nat)
    (acc : List (LuaValue × LuaValue)) (s : List Token) :
    Except DecodeError (LuaValue × Option Token × List Token) :=
  match fuel with
  | 0 => .error .outOfFuel
  | g + 1 =>
    let (o, s') := qp_next s
    match o with
    | none => .ok (.table acc, none, s')
    | some .mapClose => .ok (.table acc, some .mapClose, s')
    | some t =>
      do
        let (k, _, s2) ← qpack_process_obj arrInit g (some t) s'
        let (o2, s3) := qp_next s2
        let (v, _, s4) ← qpack_process_obj arrInit g o2 s3
        qpack_map_open_loop arrInit g (lua_rawset acc k v) s4
termination_by fuel
end

/-- qpack_decode: fetch the configuration (stored in the parse struct
but never consulted by the reader), read the first object, fail on an
empty stream, otherwise process one value.  Trailing tokens are
ignored, as in the source.  The stream length serves as fuel for the
reader, which consumes at least one token per recursive step. -/
def qpack_decode (cfg : qpack_config_t) (arrInit : Int) (s : List Token) :
    Except DecodeError LuaValue :=
  let (o, s') := qp_next s
  match o with
  | none => .error .emptyInput
  | some t =>
    do
      let (v, _, _) ← qpack_process_obj arrInit s.length (some t) s'
      .ok v

/-- The distinguished null sentinel exported as qpack.null: the NULL
light userdata pushed by lua_qpack_new. -/
def qpack_null : LuaValue := .lightuserdata_null

/-- Claim C7: decoding the empty stream always fails with the
empty-input error, for every configuration and every value of the
indeterminate loop counter; it never returns a value. -/
theorem C7_empty_input_rejected :
    ∀ (cfg : qpack_config_t) (arrInit : Int),
      qpack_decode cfg arrInit [] = .error .emptyInput :=
  fun _ _ => rfl

/-- Claim C9: decoding is independent of decode_max_depth: two
configurations that differ only in that field produce identical
results on every input (the reader never consults the
configuration). -/
theorem C9_decode_ignores_decode_max_depth :
    ∀ (e d₁ d₂ : Int) (a : Bool) (arrInit : Int) (s : List Token),
      qpack_decode ⟨e, d₁, a⟩ arrInit s = qpack_decode ⟨e, d₂, a⟩ arrInit s := by
  intro e d₁ d₂ a arrInit s
  rfl

/-- Claim C10: the NULL token decodes to the module's null sentinel
(qpack.null, a NULL light userdata), not to nil; encoding the sentinel
and encoding nil both emit the NULL token; and the sentinel is a value
distinct from nil. -/
theorem C10_null_sentinel_symmetry :
    (∀ cfg : qpack_config_t, qpack_encode cfg .lightuserdata_null = .ok [Token.null] ∧
      qpack_encode cfg .nil = .ok [Token.null]) ∧
    (∀ (cfg : qpack_config_t) (arrInit : Int),
      qpack_decode cfg arrInit [Token.null] = .ok qpack_null) ∧
    qpack_null = .lightuserdata_null ∧ qpack_null ≠ .nil := by
  refine ⟨fun cfg => ⟨?_, ?_⟩, fun cfg arrInit => ?_, rfl, fun h => ?_⟩
  · simp [qpack_encode, qpack_append_data]
  · simp [qpack_encode, qpack_append_data]
  · simp [qpack_decode, qpack_process_obj, qp_next, qpack_null, Bind.bind, Except.bind]
  · exact LuaValue.noConfusion h

/-- Claim C8: an empty table (no entries, no length override) encodes
as an empty bracketed map under the default
encode_empty_table_as_array = false, and as an empty bracketed array
when the option is set, for any encode_max_depth of at least 1. -/
theorem C8_empty_table_policy :
    ∀ (e d : Int), 1 ≤ e →
      qpack_encode ⟨e, d, false⟩ (.table []) = .ok [Token.mapOpen, Token.mapClose] ∧
      qpack_encode ⟨e, d, true⟩ (.table []) = .ok [Token.arrayOpen, Token.arrayClose] := by
  intro e d he
  have h1 : ¬((0 : Int) + 1 > e) := by omega
  constructor
  · simp [qpack_encode, qpack_append_data, qpack_append_object, lua_array_length,
      lua_array_length_go, Bind.bind, Except.bind, h1, he]
  · simp [qpack_encode, qpack_append_data, qpack_append_array, lua_array_length,
      lua_array_length_go, Bind.bind, Except.bind, h1, he]

/-- Witness for C8 at the default depth limit. -/
theorem C8_empty_table_policy_witness :
    (1 : Int) ≤ 1000 ∧
    (qpack_encode ⟨1000, 1000, false⟩ (.table []) = .ok [Token.mapOpen, Token.mapClose] ∧
     qpack_encode ⟨1000, 1000, true⟩ (.table []) = .ok [Token.arrayOpen, Token.arrayClose]) :=
  ⟨by norm_num, C8_empty_table_policy 1000 1000 (by norm_num)⟩

/-- Claim C1 (evaluation of the code at the failing input): the source
returns max, not the entry count, from lua_array_length, so the table
with keys exactly 1 and 3 (two entries, max key 3) is classified as an
array of length 3 and encoded as a three-element array with a NULL
hole, not as a map; the dense table with keys 1, 2, 3 is encoded as a
three-element array as the claim states. -/
theorem C1_sparse_table_encoded_as_array :
    lua_array_length [(.int 1, .boolean true), (.int 3, .boolean true)] = 3 ∧
    qpack_encode default_config
        (.table [(.int 1, .boolean true), (.int 3, .boolean true)]) =
      .ok [Token.arrayOpen, Token.qp_true, Token.null, Token.qp_true, Token.arrayClose] ∧
    qpack_encode default_config
        (.table [(.int 1, .boolean true), (.int 2, .boolean false), (.int 3, .boolean true)]) =
      .ok [Token.arrayOpen, Token.qp_true, Token.qp_false, Token.qp_true, Token.arrayClose] := by
  refine ⟨by simp [lua_array_length, lua_array_length_go], ?_, ?_⟩
  · simp [qpack_encode, qpack_append_data, qpack_append_array, lua_array_length,
      lua_array_length_go, lua_rawget, lua_rawequal, default_config, Bind.bind, Except.bind]
  · simp [qpack_encode, qpack_append_data, qpack_append_array, lua_array_length,
      lua_array_length_go, lua_rawget, lua_rawequal, default_config, Bind.bind, Except.bind]

/-- Claim C3 counterexample: a map with the floating-point key 1.5
does not fail with the invalid-key error; it encodes successfully,
the key being emitted as a DOUBLE token (any number key is accepted;
only keys that are neither numbers nor strings raise the error). -/
theorem C3_float_key_accepted :
    qpack_encode default_config (.table [(.num ((3 : ℚ)/2), .boolean true)]) =
      .ok [Token.mapOpen, Token.double ((3 : ℚ)/2), Token.qp_true, Token.mapClose] ∧
    qpack_encode default_config (.table [(.num ((3 : ℚ)/2), .boolean true)]) ≠
      .error .invalidKey := by
  have h : ¬(((⌊(3 : ℚ)/2⌋ : ℚ) = 3/2) ∧ 1 ≤ (3 : ℚ)/2) := by norm_num
  have henc : qpack_encode default_config (.table [(.num ((3 : ℚ)/2), .boolean true)]) =
      .ok [Token.mapOpen, Token.double ((3 : ℚ)/2), Token.qp_true, Token.mapClose] := by
    simp [qpack_encode, qpack_append_data, qpack_append_object, lua_array_length,
      lua_array_length_go, default_config, Bind.bind, Except.bind, h]
  exact ⟨henc, by rw [henc]; simp⟩

/-- A key the map encoder accepts: a number (either subtype) or a
string; every other key raises the invalid-key exception. -/
def is_number_or_string : LuaValue → Bool
  | .int _ => true
  | .num _ => true
  | .str _ => true
  | _ => false

/-- A value whose serialisation always succeeds immediately: anything
but a table (which may hit the depth limit) or an unserialisable
value. -/
def scalar_encodable : LuaValue → Bool
  | .table _ => false
  | .other => false
  | _ => true

/-- A table containing a key that is neither a number nor a string is
never classified as an array: the scan of lua_array_length returns -1. -/
theorem lua_array_length_go_of_bad_key (entries : List (LuaValue × LuaValue))
    (h : ∃ p ∈ entries, is_number_or_string p.1 = false) :
    ∀ maxv items : Int, lua_array_length_go maxv items entries = -1 := by
  induction entries with
  | nil => simp at h
  | cons p rest ih =>
    obtain ⟨k, v⟩ := p
    intro maxv items
    rcases h with ⟨p', hp', hbad⟩
    rcases List.mem_cons.mp hp' with hhead | htail
    · subst hhead
      simp only [is_number_or_string] at hbad
      cases k <;> simp_all [lua_array_length_go]
    · have hrest : ∃ p ∈ rest, is_number_or_string p.1 = false := ⟨p', htail, hbad⟩
      cases k <;> simp [lua_array_length_go, ih hrest]

/-- Serialising a non-table, non-unsupported value always succeeds. -/
theorem qpack_append_data_scalar (cfg : qpack_config_t) (depth : Int)
    (v : LuaValue) (h : scalar_encodable v = true) :
    ∃ ts, qpack_append_data cfg depth v = .ok ts := by
  cases v with
  | nil => exact ⟨[Token.null], by simp [qpack_append_data]⟩
  | boolean b => exact ⟨[if b then Token.qp_true else Token.qp_false], by simp [qpack_append_data]⟩
  | int n => exact ⟨[Token.int64 n], by simp [qpack_append_data]⟩
  | num q => exact ⟨[Token.double q], by simp [qpack_append_data]⟩
  | str s => exact ⟨[Token.raw (s ++ [0])], by simp [qpack_append_data]⟩
  | lightuserdata_null => exact ⟨[Token.null], by simp [qpack_append_data]⟩
  | table entries => simp [scalar_encodable] at h
  | other => simp [scalar_encodable] at h

/-- The map-encoding loop fails with the invalid-key error as soon as
it reaches a key that is neither a number nor a string, provided the
values encountered before it serialise successfully. -/
theorem qpack_append_object_invalid (cfg : qpack_config_t) (depth : Int) :
    ∀ entries : List (LuaValue × LuaValue),
      (∀ p ∈ entries, scalar_encodable p.2 = true) →
      (∃ p ∈ entries, is_number_or_string p.1 = false) →
      qpack_append_object cfg depth entries = .error .invalidKey := by
  intro entries
  induction entries with
  | nil => intro _ h; simp at h
  | cons p rest ih =>
    obtain ⟨k, v⟩ := p
    intro hvals hbad
    have hv : scalar_encodable v = true := hvals (k, v) (List.mem_cons_self _ _)
    obtain ⟨ts, hts⟩ := qpack_append_data_scalar cfg depth v hv
    by_cases hk : is_number_or_string k = true
    · have hrest : ∃ p ∈ rest, is_number_or_string p.1 = false := by
        rcases hbad with ⟨p', hp', hbad'⟩
        rcases List.mem_cons.mp hp' with hhead | htail
        · subst hhead; simp [hk] at hbad'
        · exact ⟨p', htail, hbad'⟩
      have hr := ih (fun p hp => hvals p (List.mem_cons_of_mem _ hp)) hrest
      cases k <;> simp [is_number_or_string] at hk <;>
        simp [qpack_append_object, hts, hr, Bind.bind, Except.bind]
    · cases k <;> simp [is_number_or_string] at hk <;>
        simp [qpack_append_object, Bind.bind, Except.bind]

/-- Claim C3 amended: encoding a table that the encoder treats as a map
fails with the invalid-key error whenever some key is neither a number
nor a string (for instance a boolean key); a floating-point key such
as 1.5 is NOT rejected — it is a number and is encoded as a DOUBLE
key (see the counterexample theorem).  Values are assumed to be
immediately serialisable so that the scan reaches the offending key. -/
theorem C3_amended_invalid_key_policy (cfg : qpack_config_t)
    (entries : List (LuaValue × LuaValue))
    (hdepth : 1 ≤ cfg.encode_max_depth)
    (hvals : ∀ p ∈ entries, scalar_encodable p.2 = true)
    (hbad : ∃ p ∈ entries, is_number_or_string p.1 = false) :
    qpack_encode cfg (.table entries) = .error .invalidKey := by
  have hlen : lua_array_length entries = -1 :=
    lua_array_length_go_of_bad_key entries hbad 0 0
  have h1 : ¬(cfg.encode_max_depth < 1) := by omega
  have hobj := qpack_append_object_invalid cfg 1 entries hvals hbad
  simp [qpack_encode, qpack_append_data, hlen, h1, hobj, Bind.bind, Except.bind]

/-- Witness for the amended C3 at a boolean key. -/
theorem C3_amended_invalid_key_policy_witness :
    (1 : Int) ≤ default_config.encode_max_depth ∧
    qpack_encode default_config (.table [(.boolean true, .int 1)]) = .error .invalidKey :=
  ⟨by norm_num [default_config],
   C3_amended_invalid_key_policy default_config [(.boolean true, .int 1)]
     (by norm_num [default_config])
     (by intro p hp; simp only [List.mem_singleton] at hp; subst hp; rfl)
     ⟨(.boolean true, .int 1), List.mem_singleton.mpr rfl, rfl⟩⟩

/-- Claim C2 (evaluation of the code at the failing input): the
bracketed form ARRAY_OPEN, 7, 9, ARRAY_CLOSE decodes to the
two-element list whatever the indeterminate counter is, but the
small-container form ARRAY2, 7, 9 never does: the loop
`for (int i = i; i <= obj->tp - QP_ARRAY0; i++)` starts from the
uninitialised counter (modelled by `arrInit`) and re-reads its bound
from the current object, which the first element overwrites with the
INT64 token (type 4, bound 4 - 6 = -2), so for every possible counter
value the result differs from the claimed two-element list. -/
theorem C2_arrN_decode_divergence :
    ∀ arrInit : Int,
      qpack_decode default_config arrInit
          [Token.arrayOpen, Token.int64 7, Token.int64 9, Token.arrayClose] =
        .ok (.table [(.int 1, .int 7), (.int 2, .int 9)]) ∧
      qpack_decode default_config arrInit [Token.arr 2, Token.int64 7, Token.int64 9] ≠
        .ok (.table [(.int 1, .int 7), (.int 2, .int 9)]) := by
  intro i0
  constructor
  · simp [qpack_decode, qpack_process_obj, qpack_array_open_loop, qp_next, lua_rawset,
      lua_rawequal, Bind.bind, Except.bind]
  · have htp2 : qp_tp_obj (some (Token.arr 2)) - 6 = 2 := by decide
    have htp7 : qp_tp_obj (some (Token.int64 7)) - 6 = -2 := by decide
    have htp9 : qp_tp_obj (some (Token.int64 9)) - 6 = -2 := by decide
    by_cases h1 : i0 ≤ 2
    · by_cases h2 : i0 + 1 ≤ -2
      · have hne : i0 ≠ i0 + 1 := by omega
        by_cases h3 : i0 + 1 + 1 ≤ -2
        · simp [qpack_decode, qpack_process_obj, qpack_arrN_loop, qp_next, htp2, htp7, htp9,
            lua_rawset, lua_rawequal, hne, h1, h2, h3, Bind.bind, Except.bind]
        · have hnot1 : ¬(i0 = 1) := by omega
          simp [qpack_decode, qpack_process_obj, qpack_arrN_loop, qp_next, htp2, htp7, htp9,
            lua_rawset, lua_rawequal, hne, h1, h2, h3, Bind.bind, Except.bind, hnot1]
      · simp [qpack_decode, qpack_process_obj, qpack_arrN_loop, qp_next, htp2, htp7, htp9,
          lua_rawset, lua_rawequal, h1, h2, Bind.bind, Except.bind]
    · simp [qpack_decode, qpack_process_obj, qpack_arrN_loop, qp_next, htp2, h1,
        Bind.bind, Except.bind]

/-- The scalar values of the round-trip claims: integer, float,
boolean, string, and the null sentinel (NULL decodes to the sentinel,
never to nil, so nil is not itself round-trippable — see C10). -/
def is_scalar_value : LuaValue → Bool
  | .boolean _ => true
  | .int _ => true
  | .num _ => true
  | .str _ => true
  | .lightuserdata_null => true
  | _ => false

/-- Claim C5: every scalar value round-trips: encoding succeeds and
decoding the result returns the value unchanged.  In particular the
string "ab" (bytes 97, 98) is stored with one extra terminator byte
(RAW of length 3) and decodes back to exactly "ab". -/
theorem C5_scalar_roundtrip :
    (∀ (cfg : qpack_config_t) (arrInit : Int) (v : LuaValue),
      is_scalar_value v = true →
        ∃ ts, qpack_encode cfg v = .ok ts ∧ qpack_decode cfg arrInit ts = .ok v) ∧
    qpack_encode default_config (.str [97, 98]) = .ok [Token.raw [97, 98, 0]] ∧
    qpack_decode default_config 0 [Token.raw [97, 98, 0]] = .ok (.str [97, 98]) := by
  refine ⟨?_, ?_, ?_⟩
  · intro cfg i0 v hv
    cases v with
    | boolean b =>
      cases b
      · exact ⟨[Token.qp_false], by simp [qpack_encode, qpack_append_data],
          by simp [qpack_decode, qpack_process_obj, qp_next, Bind.bind, Except.bind]⟩
      · exact ⟨[Token.qp_true], by simp [qpack_encode, qpack_append_data],
          by simp [qpack_decode, qpack_process_obj, qp_next, Bind.bind, Except.bind]⟩
    | int n =>
      exact ⟨[Token.int64 n], by simp [qpack_encode, qpack_append_data],
        by simp [qpack_decode, qpack_process_obj, qp_next, Bind.bind, Except.bind]⟩
    | num q =>
      exact ⟨[Token.double q], by simp [qpack_encode, qpack_append_data],
        by simp [qpack_decode, qpack_process_obj, qp_next, Bind.bind, Except.bind]⟩
    | str s =>
      exact ⟨[Token.raw (s ++ [0])], by simp [qpack_encode, qpack_append_data],
        by simp [qpack_decode, qpack_process_obj, qp_next, Bind.bind, Except.bind]⟩
    | lightuserdata_null =>
      exact ⟨[Token.null], by simp [qpack_encode, qpack_append_data],
        by simp [qpack_decode, qpack_process_obj, qp_next, Bind.bind, Except.bind]⟩
    | nil => simp [is_scalar_value] at hv
    | table entries => simp [is_scalar_value] at hv
    | other => simp [is_scalar_value] at hv
  · simp [qpack_encode, qpack_append_data]
  · simp [qpack_decode, qpack_process_obj, qp_next, Bind.bind, Except.bind]

/-- Witness for C5 at the string "ab". -/
theorem C5_scalar_roundtrip_witness :
    is_scalar_value (.str [97, 98]) = true ∧
    ∃ ts, qpack_encode default_config (.str [97, 98]) = .ok ts ∧
      qpack_decode default_config 0 ts = .ok (.str [97, 98]) :=
  ⟨rfl, C5_scalar_roundtrip.1 default_config 0 (.str [97, 98]) rfl⟩

/-- A list nested d levels deep: nested_list 0 is a scalar, and
nested_list (d + 1) is a one-element list containing nested_list d. -/
def nested_list : Nat → LuaValue
  | 0 => .boolean true
  | d + 1 => .table [(.int 1, nested_list d)]

/-- Encoding the d-deep nested list from depth counter k succeeds when
k + d stays within the configured limit. -/
theorem qpack_append_nested_ok (cfg : qpack_config_t) :
    ∀ (d : Nat) (k : Int), k + d ≤ cfg.encode_max_depth →
      ∃ ts, qpack_append_data cfg k (nested_list d) = .ok ts := by
  intro d
  induction d with
  | zero =>
    intro k hk
    exact ⟨[Token.qp_true], by simp [nested_list, qpack_append_data]⟩
  | succ d ih =>
    intro k hk
    obtain ⟨ts, hts⟩ := ih (k + 1) (by push_cast at hk ⊢; omega)
    refine ⟨Token.arrayOpen :: (ts ++ [Token.arrayClose]), ?_⟩
    have hd : ¬(k + 1 > cfg.encode_max_depth) := by push_cast at hk; omega
    simp [nested_list, qpack_append_data, qpack_append_array, lua_array_length,
      lua_array_length_go, lua_rawget, lua_rawequal, hd, hts, Bind.bind, Except.bind]

/-- Encoding the d-deep nested list from a depth counter already within
the limit fails with the excessive-nesting error, reporting depth
limit + 1, as soon as k + d overshoots the limit. -/
theorem qpack_append_nested_err (cfg : qpack_config_t) :
    ∀ (d : Nat) (k : Int), k ≤ cfg.encode_max_depth → cfg.encode_max_depth < k + d →
      qpack_append_data cfg k (nested_list d) =
        .error (.excessiveNesting (cfg.encode_max_depth + 1)) := by
  intro d
  induction d with
  | zero =>
    intro k h1 h2
    exact absurd h2 (by push_cast; omega)
  | succ d ih =>
    intro k h1 h2
    by_cases hd : k + 1 > cfg.encode_max_depth
    · have hk1 : k + 1 = cfg.encode_max_depth + 1 := by omega
      simp [nested_list, qpack_append_data, hd, hk1]
    · have hrec := ih (k + 1) (by omega) (by push_cast at h2 ⊢; omega)
      simp [nested_list, qpack_append_data, qpack_append_array, lua_array_length,
        lua_array_length_go, lua_rawget, lua_rawequal, hd, hrec, Bind.bind, Except.bind]

/-- Claim C6: with the default encode_max_depth of 1000, a value
nested exactly 1000 containers deep encodes successfully, while 1001
levels fail with the excessive-nesting error carrying depth 1001; in
general the counter is incremented before descending into a table and
the incremented depth exceeding the limit makes the table fail with
exactly that depth in the error. -/
theorem C6_encode_depth_limit :
    (∃ ts, qpack_encode default_config (nested_list 1000) = .ok ts) ∧
    qpack_encode default_config (nested_list 1001) = .error (.excessiveNesting 1001) ∧
    (∀ (cfg : qpack_config_t) (depth : Int) (entries : List (LuaValue × LuaValue)),
      depth + 1 > cfg.encode_max_depth →
        qpack_append_data cfg depth (.table entries) =
          .error (.excessiveNesting (depth + 1))) := by
  refine ⟨?_, ?_, ?_⟩
  · exact qpack_append_nested_ok default_config 1000 0 (by norm_num [default_config])
  · have h := qpack_append_nested_err default_config 1001 0
      (by norm_num [default_config]) (by norm_num [default_config])
    simpa [qpack_encode, default_config] using h
  · intro cfg depth entries h
    simp [qpack_append_data, h]

/-- Witness for the general part of C6 at depth 1000 against the
default limit. -/
theorem C6_encode_depth_limit_witness :
    ((1000 : Int) + 1 > default_config.encode_max_depth) ∧
    qpack_append_data default_config 1000 (.table []) =
      .error (.excessiveNesting (1000 + 1)) :=
  ⟨by norm_num [default_config],
   C6_encode_depth_limit.2.2 default_config 1000 [] (by norm_num [default_config])⟩

/-- The interchange value type of the spec (section 3): null, boolean,
integer, double, string, list, map.  Used to state the container
round-trip: a QVal describes the shape of a Lua value built from
scalars, dense positional lists and keyed maps. -/
inductive QVal where
  | qnull
  | qbool (b : Bool)
  | qint (n : Int)
  | qdbl (q : ℚ)
  | qstr (s : List Nat)
  | qlist (elems : List QVal)
  | qmap (pairs : List (QVal × QVal))

mutual
/-- The Lua value denoted by a QVal: null becomes the qpack.null
sentinel, a list becomes a table keyed 1..n in order, a map becomes a
table with the given pairs in iteration order. -/
def QVal.toLua : QVal → LuaValue
  | .qnull => .lightuserdata_null
  | .qbool b => .boolean b
  | .qint n => .int n
  | .qdbl q => .num q
  | .qstr s => .str s
  | .qlist es => .table (toLuaList 1 es)
  | .qmap ps => .table (toLuaPairs ps)

/-- Table entries of a list: keys i, i+1, ... in order. -/
def toLuaList (i : Int) : List QVal → List (LuaValue × LuaValue)
  | [] => []
  | v :: vs => (.int i, v.toLua) :: toLuaList (i + 1) vs

/-- Table entries of a map, in iteration order. -/
def toLuaPairs : List (QVal × QVal) → List (LuaValue × LuaValue)
  | [] => []
  | (k, v) :: ps => (k.toLua, v.toLua) :: toLuaPairs ps
end

mutual
/-- The token stream the encoder emits for a QVal.  The encoder always
emits bracketed containers; an empty container is emitted as an empty
array or an empty map according to encode_empty_table_as_array (the
flag argument), because an empty list and an empty map are the same
empty table. -/
def QVal.qenc (flag : Bool) : QVal → List Token
  | .qnull => [Token.null]
  | .qbool b => [if b then Token.qp_true else Token.qp_false]
  | .qint n => [Token.int64 n]
  | .qdbl q => [Token.double q]
  | .qstr s => [Token.raw (s ++ [0])]
  | .qlist [] =>
    if flag then [Token.arrayOpen, Token.arrayClose]
    else [Token.mapOpen, Token.mapClose]
  | .qlist (v :: vs) =>
    Token.arrayOpen :: (qencList flag (v :: vs) ++ [Token.arrayClose])
  | .qmap [] =>
    if flag then [Token.arrayOpen, Token.arrayClose]
    else [Token.mapOpen, Token.mapClose]
  | .qmap (p :: ps) =>
    Token.mapOpen :: (qencPairs flag (p :: ps) ++ [Token.mapClose])

/-- Concatenated encodings of list elements. -/
def qencList (flag : Bool) : List QVal → List Token
  | [] => []
  | v :: vs => v.qenc flag ++ qencList flag vs

/-- Concatenated encodings of map pairs (key then value). -/
def qencPairs (flag : Bool) : List (QVal × QVal) → List Token
  | [] => []
  | (k, v) :: ps => k.qenc flag ++ v.qenc flag ++ qencPairs flag ps
end

/-- A key the encoder can emit and the decoder reads back: integer or
string. -/
def goodKey : QVal → Bool
  | .qint _ => true
  | .qstr _ => true
  | _ => false

/-- A key that prevents the array classification of lua_array_length:
a string, or an integer below 1. -/
def notCountableKey : QVal → Bool
  | .qstr _ => true
  | .qint n => decide (n < 1)
  | _ => false

/-- Key equality as lua_rawequal sees the encoded keys. -/
def qkeyEq : QVal → QVal → Bool
  | .qint a, .qint b => a == b
  | .qstr s, .qstr t => s == t
  | _, _ => false

/-- Pairwise distinct keys (a Lua table cannot hold two entries whose
keys are rawequal). -/
def distinctKeys : List (QVal × QVal) → Bool
  | [] => true
  | (k, _) :: ps => ps.all (fun p => !qkeyEq k p.1) && distinctKeys ps

mutual
/-- The round-trippable class: scalars; lists of round-trippable
values; maps with distinct Int/Str keys that the encoder actually
classifies as maps (empty, or containing a key that is not a positive
integer — otherwise the encoder re-encodes the table as an array, see
the counterexample theorem). -/
def QVal.good : QVal → Bool
  | .qnull => true
  | .qbool _ => true
  | .qint _ => true
  | .qdbl _ => true
  | .qstr _ => true
  | .qlist es => goodList es
  | .qmap ps =>
    (ps.isEmpty || ps.any (fun p => notCountableKey p.1)) &&
      distinctKeys ps && goodPairs ps

def goodList : List QVal → Bool
  | [] => true
  | v :: vs => v.good && goodList vs

def goodPairs : List (QVal × QVal) → Bool
  | [] => true
  | (k, v) :: ps => goodKey k && v.good && goodPairs ps
end

mutual
/-- Container nesting depth of a QVal (scalars have depth 0). -/
def QVal.qdepth : QVal → Nat
  | .qnull => 0
  | .qbool _ => 0
  | .qint _ => 0
  | .qdbl _ => 0
  | .qstr _ => 0
  | .qlist es => qdepthList es + 1
  | .qmap ps => qdepthPairs ps + 1

def qdepthList : List QVal → Nat
  | [] => 0
  | v :: vs => max v.qdepth (qdepthList vs)

def qdepthPairs : List (QVal × QVal) → Nat
  | [] => 0
  | (k, v) :: ps => max v.qdepth (qdepthPairs ps)
end

/-- Scanning a dense positional table keyed j, j+1, ... (with the
running maximum still below j) yields the last key, i.e. the length
offset by the starting key. -/
theorem lua_array_length_go_toLuaList :
    ∀ (es : List QVal) (j maxv items : Int), 1 ≤ j → maxv ≤ j - 1 →
      lua_array_length_go maxv items (toLuaList j es) =
        if es.isEmpty then maxv else j + es.length - 1 := by
  intro es
  induction es with
  | nil => intro j maxv items h1 h2; simp [toLuaList, lua_array_length_go]
  | cons v vs ih =>
    intro j maxv items h1 h2
    have hj0 : ¬(j = 0) := by omega
    have hj1 : 1 ≤ j := h1
    have hmax : maxv < j := by omega
    simp only [toLuaList, lua_array_length_go, hj0, if_false, hj1, if_true, hmax]
    rw [ih (j + 1) j (items + 1) (by omega) (by omega)]
    cases vs with
    | nil => simp
    | cons w ws => simp; omega

/-- lua_array_length classifies the table of a list as an array of
length equal to the element count (0 for the empty list). -/
theorem lua_array_length_toLuaList (es : List QVal) :
    lua_array_length (toLuaList 1 es) =
      if es.isEmpty then 0 else es.length := by
  have h := lua_array_length_go_toLuaList es 1 0 0 (by omega) (by omega)
  simpa [lua_array_length] using h

/-- A map whose keys are all Int or Str and that contains at least one
key that is not a positive integer is never classified as an array. -/
theorem lua_array_length_go_toLuaPairs :
    ∀ (ps : List (QVal × QVal)),
      (∀ p ∈ ps, goodKey p.1 = true) →
      (∃ p ∈ ps, notCountableKey p.1 = true) →
      ∀ maxv items : Int, lua_array_length_go maxv items (toLuaPairs ps) = -1 := by
  intro ps
  induction ps with
  | nil => intro _ h; simp at h
  | cons p rest ih =>
    obtain ⟨k, v⟩ := p
    intro hgood hbad maxv items
    have hk : goodKey k = true := hgood (k, v) (List.mem_cons_self _ _)
    cases k with
    | qint n =>
      by_cases hn : n < 1
      · rcases eq_or_ne n 0 with h0 | h0
        · simp [toLuaPairs, lua_array_length_go, QVal.toLua, h0]
        · have : ¬(1 ≤ n) := by omega
          simp [toLuaPairs, lua_array_length_go, QVal.toLua, h0, this]
      · have h0 : ¬(n = 0) := by omega
        have h1 : 1 ≤ n := by omega
        have hrest : ∃ p ∈ rest, notCountableKey p.1 = true := by
          rcases hbad with ⟨p', hp', hbad'⟩
          rcases List.mem_cons.mp hp' with hhead | htail
          · subst hhead
            simp [notCountableKey] at hbad'
            omega
          · exact ⟨p', htail, hbad'⟩
        simp only [toLuaPairs, lua_array_length_go, QVal.toLua, h0, if_false, h1, if_true]
        exact ih (fun p hp => hgood p (List.mem_cons_of_mem _ hp)) hrest _ _
    | qstr s => simp [toLuaPairs, lua_array_length_go, QVal.toLua]
    | qnull => simp [goodKey] at hk
    | qbool b => simp [goodKey] at hk
    | qdbl q => simp [goodKey] at hk
    | qlist es => simp [goodKey] at hk
    | qmap ps => simp [goodKey] at hk

/-- Positional read from a list table: index j + |pre| finds the
element after the prefix pre. -/
theorem lua_rawget_toLuaList_split :
    ∀ (pre : List QVal) (j : Int) (v : QVal) (rest : List QVal),
      lua_rawget (toLuaList j (pre ++ v :: rest)) (.int (j + pre.length)) = v.toLua := by
  intro pre
  induction pre with
  | nil =>
    intro j v rest
    simp [toLuaList, lua_rawget, lua_rawequal]
  | cons u pre' ih =>
    intro j v rest
    simp only [List.cons_append, toLuaList, lua_rawget, lua_rawequal, List.length_cons]
    rw [if_neg (by simp; omega)]
    convert ih (j + 1) v rest using 3
    push_cast
    ring

theorem goodPairs_keys : ∀ ps, goodPairs ps = true → ∀ q ∈ ps, goodKey q.1 = true := by
  intro ps
  induction ps with
  | nil => intro _ q hq; simp at hq
  | cons a rest ih =>
    obtain ⟨k, v⟩ := a
    intro h q hq
    simp only [goodPairs, Bool.and_eq_true] at h
    rcases List.mem_cons.mp hq with hh | ht
    · subst hh; exact h.1.1
    · exact ih h.2 q ht

/-- Encoder correctness bundle, by strong induction on a size bound:
serialising the Lua image of a good QVal within the depth budget
produces exactly its token encoding; the array loop and the map loop
produce the concatenated element encodings. -/
theorem qpack_append_qenc_bundle : ∀ n : Nat,
    (∀ (cfg : qpack_config_t) (d : Int) (v : QVal), sizeOf v ≤ n → v.good = true →
      d + (v.qdepth : Int) ≤ cfg.encode_max_depth →
      qpack_append_data cfg d v.toLua = .ok (v.qenc cfg.encode_empty_table_as_array)) ∧
    (∀ (cfg : qpack_config_t) (d : Int) (es pre post : List QVal) (i len : Int),
      sizeOf post ≤ n → es = pre ++ post → i = (pre.length : Int) + 1 →
      len = (es.length : Int) → goodList post = true →
      d + (qdepthList post : Int) ≤ cfg.encode_max_depth →
      qpack_append_array cfg d (toLuaList 1 es) i len =
        .ok (qencList cfg.encode_empty_table_as_array post)) ∧
    (∀ (cfg : qpack_config_t) (d : Int) (ps : List (QVal × QVal)),
      sizeOf ps ≤ n → goodPairs ps = true →
      d + (qdepthPairs ps : Int) ≤ cfg.encode_max_depth →
      qpack_append_object cfg d (toLuaPairs ps) =
        .ok (qencPairs cfg.encode_empty_table_as_array ps)) := by
  intro n
  induction n with
  | zero =>
    refine ⟨?_, ?_, ?_⟩
    · intro cfg d v hsz _ _
      exact absurd hsz (by cases v <;> simp)
    · intro cfg d es pre post i len hsz _ _ _ _ _
      exact absurd hsz (by cases post <;> simp)
    · intro cfg d ps hsz _ _
      exact absurd hsz (by cases ps <;> simp)
  | succ n ih =>
    refine ⟨?_, ?_, ?_⟩
    · -- qpack_append_data on QVal.toLua
      intro cfg d v hsz hgood hd
      cases v with
      | qnull => simp [QVal.toLua, QVal.qenc, qpack_append_data]
      | qbool b => simp [QVal.toLua, QVal.qenc, qpack_append_data]
      | qint m => simp [QVal.toLua, QVal.qenc, qpack_append_data]
      | qdbl q => simp [QVal.toLua, QVal.qenc, qpack_append_data]
      | qstr s => simp [QVal.toLua, QVal.qenc, qpack_append_data]
      | qlist es =>
        cases es with
        | nil =>
          have hdep : ¬(d + 1 > cfg.encode_max_depth) := by
            simp [QVal.qdepth, qdepthList] at hd; omega
          cases hflag : cfg.encode_empty_table_as_array
          · simp [QVal.toLua, toLuaList, QVal.qenc, qpack_append_data, qpack_append_object,
              lua_array_length, lua_array_length_go, hdep, hflag, Bind.bind, Except.bind]
          · simp [QVal.toLua, toLuaList, QVal.qenc, qpack_append_data, qpack_append_array,
              lua_array_length, lua_array_length_go, hdep, hflag, Bind.bind, Except.bind]
        | cons v0 vs =>
          have hdep : ¬(d + 1 > cfg.encode_max_depth) := by
            simp [QVal.qdepth] at hd; omega
          have hgl : goodList (v0 :: vs) = true := by simpa [QVal.good] using hgood
          have hdl : (d + 1) + (qdepthList (v0 :: vs) : Int) ≤ cfg.encode_max_depth := by
            simp only [QVal.qdepth] at hd; push_cast at hd ⊢; omega
          have hsz' : sizeOf (v0 :: vs) ≤ n := by
            simp only [QVal.qlist.sizeOf_spec] at hsz; omega
          have hlen := lua_array_length_toLuaList (v0 :: vs)
          simp only [List.isEmpty_cons, if_false, Bool.false_eq_true] at hlen
          have harr := ih.2.1 cfg (d + 1) (v0 :: vs) [] (v0 :: vs) 1
            (((v0 :: vs).length : Int)) hsz' rfl (by simp) rfl hgl hdl
          push_cast [List.length_cons] at harr
          simp [QVal.toLua, QVal.qenc, qpack_append_data, hlen, hdep, harr,
            Bind.bind, Except.bind]
      | qmap ps =>
        cases ps with
        | nil =>
          have hdep : ¬(d + 1 > cfg.encode_max_depth) := by
            simp [QVal.qdepth, qdepthPairs] at hd; omega
          cases hflag : cfg.encode_empty_table_as_array
          · simp [QVal.toLua, toLuaPairs, QVal.qenc, qpack_append_data, qpack_append_object,
              lua_array_length, lua_array_length_go, hdep, hflag, Bind.bind, Except.bind]
          · simp [QVal.toLua, toLuaPairs, QVal.qenc, qpack_append_data, qpack_append_array,
              lua_array_length, lua_array_length_go, hdep, hflag, Bind.bind, Except.bind]
        | cons p ps' =>
          have hdep : ¬(d + 1 > cfg.encode_max_depth) := by
            simp [QVal.qdepth] at hd; omega
          have hcomp : ((p :: ps').isEmpty ||
                (p :: ps').any (fun q => notCountableKey q.1)) = true ∧
              distinctKeys (p :: ps') = true ∧ goodPairs (p :: ps') = true := by
            have h := hgood
            simp only [QVal.good, Bool.and_eq_true] at h
            tauto
          have hgp : goodPairs (p :: ps') = true := hcomp.2.2
          have hany : ∃ q ∈ (p :: ps'), notCountableKey q.1 = true := by
            have h1 := hcomp.1
            simp only [List.isEmpty_cons, Bool.false_or] at h1
            simpa [List.any_eq_true] using h1
          have hlen : lua_array_length (toLuaPairs (p :: ps')) = -1 :=
            lua_array_length_go_toLuaPairs (p :: ps') (goodPairs_keys _ hgp) hany 0 0
          have hdp : (d + 1) + (qdepthPairs (p :: ps') : Int) ≤ cfg.encode_max_depth := by
            simp only [QVal.qdepth] at hd; push_cast at hd ⊢; omega
          have hsz' : sizeOf (p :: ps') ≤ n := by
            simp only [QVal.qmap.sizeOf_spec] at hsz; omega
          have hobj := ih.2.2 cfg (d + 1) (p :: ps') hsz' hgp hdp
          simp [QVal.toLua, QVal.qenc, qpack_append_data, hlen, hdep, hobj,
            Bind.bind, Except.bind]
    · -- qpack_append_array loop
      intro cfg d es pre post i len hsz hsplit hi hlen hgood hd
      cases post with
      | nil =>
        have hgt : ¬(i ≤ len) := by
          subst hsplit
          simp only [List.append_nil] at hlen
          omega
        rw [qpack_append_array, dif_neg hgt]
        simp [qencList]
      | cons v rest =>
        have hlens : (es.length : Int) = (pre.length : Int) + 1 + (rest.length : Int) := by
          subst hsplit
          simp only [List.length_append, List.length_cons]
          push_cast
          ring
        have hle : i ≤ len := by omega
        have hv : v.good = true ∧ goodList rest = true := by
          simpa [goodList, Bool.and_eq_true] using hgood
        have hdv : d + (v.qdepth : Int) ≤ cfg.encode_max_depth := by
          simp only [qdepthList] at hd; push_cast at hd ⊢; omega
        have hdr : d + (qdepthList rest : Int) ≤ cfg.encode_max_depth := by
          simp only [qdepthList] at hd; push_cast at hd ⊢; omega
        have hget : lua_rawget (toLuaList 1 es) (.int i) = v.toLua := by
          rw [hsplit, hi, show (pre.length : Int) + 1 = 1 + (pre.length : Int) by ring]
          exact lua_rawget_toLuaList_split pre 1 v rest
        have hszv : sizeOf v ≤ n := by
          simp only [List.cons.sizeOf_spec] at hsz; omega
        have hszr : sizeOf rest ≤ n := by
          simp only [List.cons.sizeOf_spec] at hsz
          have : 1 ≤ sizeOf v := by cases v <;> simp
          omega
        have helem := ih.1 cfg d v hszv hv.1 hdv
        have hrec := ih.2.1 cfg d es (pre ++ [v]) rest (i + 1) len hszr
          (by rw [hsplit]; simp)
          (by simp only [List.length_append, List.length_singleton]; push_cast; omega)
          hlen hv.2 hdr
        rw [qpack_append_array, dif_pos hle, hget, helem]
        simp only [Bind.bind, Except.bind, hrec, qencList]
    · -- qpack_append_object loop
      intro cfg d ps hsz hgood hd
      cases ps with
      | nil => simp [toLuaPairs, qpack_append_object, qencPairs]
      | cons p ps' =>
        obtain ⟨k, v⟩ := p
        have hc : goodKey k = true ∧ v.good = true ∧ goodPairs ps' = true := by
          simpa [goodPairs, Bool.and_eq_true, and_assoc] using hgood
        have hdv : d + (v.qdepth : Int) ≤ cfg.encode_max_depth := by
          simp only [qdepthPairs] at hd; push_cast at hd ⊢; omega
        have hdr : d + (qdepthPairs ps' : Int) ≤ cfg.encode_max_depth := by
          simp only [qdepthPairs] at hd; push_cast at hd ⊢; omega
        have hszv : sizeOf v ≤ n := by
          simp only [List.cons.sizeOf_spec, Prod.mk.sizeOf_spec] at hsz; omega
        have hszr : sizeOf ps' ≤ n := by
          simp only [List.cons.sizeOf_spec, Prod.mk.sizeOf_spec] at hsz
          have : 1 ≤ sizeOf v := by cases v <;> simp
          omega
        have hval := ih.1 cfg d v hszv hc.2.1 hdv
        have hrec := ih.2.2 cfg d ps' hszr hc.2.2 hdr
        cases k with
        | qint m =>
          simp [toLuaPairs, qpack_append_object, QVal.toLua, qencPairs, QVal.qenc,
            hval, hrec, Bind.bind, Except.bind]
        | qstr s =>
          simp [toLuaPairs, qpack_append_object, QVal.toLua, qencPairs, QVal.qenc,
            hval, hrec, Bind.bind, Except.bind]
        | qnull => simp [goodKey] at hc
        | qbool b => simp [goodKey] at hc
        | qdbl q => simp [goodKey] at hc
        | qlist es' => simp [goodKey] at hc
        | qmap l => simp [goodKey] at hc

/-- Encoding the Lua image of a good QVal whose nesting depth fits the
configured limit yields exactly its token encoding. -/
theorem qpack_encode_qenc (cfg : qpack_config_t) (v : QVal) (hgood : v.good = true)
    (hd : (v.qdepth : Int) ≤ cfg.encode_max_depth) :
    qpack_encode cfg v.toLua = .ok (v.qenc cfg.encode_empty_table_as_array) := by
  have h := (qpack_append_qenc_bundle (sizeOf v)).1 cfg 0 v le_rfl hgood (by omega)
  simpa [qpack_encode] using h

/-- Every QVal encoding is nonempty. -/
theorem qenc_length_pos (flag : Bool) (v : QVal) : 1 ≤ (v.qenc flag).length := by
  cases v with
  | qlist es => cases es <;> cases flag <;> simp [QVal.qenc]
  | qmap ps => cases ps <;> cases flag <;> simp [QVal.qenc]
  | qnull => simp [QVal.qenc]
  | qbool b => simp [QVal.qenc]
  | qint n => simp [QVal.qenc]
  | qdbl q => simp [QVal.qenc]
  | qstr s => simp [QVal.qenc]

/-- The first token of a QVal encoding is never a closing token. -/
theorem qenc_head_not_close (flag : Bool) (v : QVal) (t : Token) (ts : List Token)
    (h : v.qenc flag = t :: ts) : t ≠ Token.arrayClose ∧ t ≠ Token.mapClose := by
  cases v with
  | qlist es =>
    cases es <;> cases flag <;> simp [QVal.qenc] at h <;>
      { obtain ⟨h1, _⟩ := h; subst h1; exact ⟨by simp, by simp⟩ }
  | qmap ps =>
    cases ps <;> cases flag <;> simp [QVal.qenc] at h <;>
      { obtain ⟨h1, _⟩ := h; subst h1; exact ⟨by simp, by simp⟩ }
  | qnull => simp [QVal.qenc] at h; obtain ⟨h1, _⟩ := h; subst h1; exact ⟨by simp, by simp⟩
  | qbool b =>
    cases b <;> simp [QVal.qenc] at h <;>
      { obtain ⟨h1, _⟩ := h; subst h1; exact ⟨by simp, by simp⟩ }
  | qint n => simp [QVal.qenc] at h; obtain ⟨h1, _⟩ := h; subst h1; exact ⟨by simp, by simp⟩
  | qdbl q => simp [QVal.qenc] at h; obtain ⟨h1, _⟩ := h; subst h1; exact ⟨by simp, by simp⟩
  | qstr s => simp [QVal.qenc] at h; obtain ⟨h1, _⟩ := h; subst h1; exact ⟨by simp, by simp⟩

/-- The Lua image of a QVal is never nil (null maps to the sentinel). -/
theorem QVal.toLua_ne_nil (v : QVal) : v.toLua ≠ LuaValue.nil := by
  cases v <;> simp [QVal.toLua]

/-- lua_rawset with a non-nil value under a key not yet present appends
the entry at the end of the iteration order. -/
theorem lua_rawset_fresh (acc : List (LuaValue × LuaValue)) (k v : LuaValue)
    (hv : v ≠ LuaValue.nil)
    (h : ∀ p ∈ acc, lua_rawequal p.1 k = false) :
    lua_rawset acc k v = acc ++ [(k, v)] := by
  have hany : acc.any (fun p => lua_rawequal p.1 k) = false := by
    simp only [List.any_eq_false]
    intro p hp
    simp [h p hp]
  cases v with
  | nil => exact absurd rfl hv
  | boolean b => simp [lua_rawset, hany]
  | int n => simp [lua_rawset, hany]
  | num q => simp [lua_rawset, hany]
  | str s => simp [lua_rawset, hany]
  | lightuserdata_null => simp [lua_rawset, hany]
  | table entries => simp [lua_rawset, hany]
  | other => simp [lua_rawset, hany]

/-- On encodable keys, lua_rawequal of the Lua images agrees with
QVal key equality. -/
theorem lua_rawequal_toLua_keys (k k' : QVal) (hk : goodKey k = true)
    (hk' : goodKey k' = true) :
    lua_rawequal k.toLua k'.toLua = qkeyEq k k' := by
  cases k <;> simp [goodKey] at hk <;> cases k' <;> simp [goodKey] at hk' <;>
    simp [QVal.toLua, lua_rawequal, qkeyEq]

/-- One step of the ARRAY_OPEN loop on a non-closing head token. -/
theorem qpack_array_open_loop_cons (arrInit : Int) (f : Nat) (i : Int)
    (acc : List (LuaValue × LuaValue)) (t : Token) (s : List Token)
    (h : t ≠ Token.arrayClose) :
    qpack_array_open_loop arrInit (f + 1) i acc (t :: s) =
      Except.bind (qpack_process_obj arrInit f (some t) s)
        (fun x => qpack_array_open_loop arrInit f (i + 1)
          (lua_rawset acc (LuaValue.int i) x.1) x.2.2) := by
  cases t <;> simp [qpack_array_open_loop, qp_next, Bind.bind, Except.bind]
  exact absurd rfl h

/-- Decoder correctness bundle, by strong induction on a size bound:
processing the encoding of a good QVal (with fuel at least the token
count) reconstructs its Lua image; the ARRAY_OPEN loop appends the
elements at successive indices; the MAP_OPEN loop appends the pairs in
read order. -/
theorem qpack_process_qenc_bundle : ∀ n : Nat,
    (∀ (flag : Bool) (arrInit : Int) (v : QVal), sizeOf v ≤ n → v.good = true →
      ∀ (f : Nat) (t : Token) (ts rest : List Token),
        v.qenc flag = t :: ts → (v.qenc flag).length ≤ f →
        ∃ last, qpack_process_obj arrInit f (some t) (ts ++ rest) =
          .ok (v.toLua, last, rest)) ∧
    (∀ (flag : Bool) (arrInit : Int) (es : List QVal), sizeOf es ≤ n →
      goodList es = true →
      ∀ (f : Nat) (i : Int) (acc : List (LuaValue × LuaValue)) (rest : List Token),
        (∀ p ∈ acc, ∃ j : Int, p.1 = LuaValue.int j ∧ j < i) →
        (qencList flag es).length + 1 ≤ f →
        qpack_array_open_loop arrInit f i acc
            (qencList flag es ++ Token.arrayClose :: rest) =
          .ok (.table (acc ++ toLuaList i es), some Token.arrayClose, rest)) ∧
    (∀ (flag : Bool) (arrInit : Int) (ps : List (QVal × QVal)), sizeOf ps ≤ n →
      goodPairs ps = true → distinctKeys ps = true →
      ∀ (f : Nat) (acc : List (LuaValue × LuaValue)) (rest : List Token),
        (∀ p ∈ acc, ∀ q ∈ ps, lua_rawequal p.1 (q.1.toLua) = false) →
        (qencPairs flag ps).length + 1 ≤ f →
        qpack_map_open_loop arrInit f acc
            (qencPairs flag ps ++ Token.mapClose :: rest) =
          .ok (.table (acc ++ toLuaPairs ps), some Token.mapClose, rest)) := by
  intro n
  induction n with
  | zero =>
    refine ⟨?_, ?_, ?_⟩
    · intro flag arrInit v hsz _
      exact absurd hsz (by cases v <;> simp)
    · intro flag arrInit es hsz _
      exact absurd hsz (by cases es <;> simp)
    · intro flag arrInit ps hsz _
      exact absurd hsz (by cases ps <;> simp)
  | succ n ih =>
    refine ⟨?_, ?_, ?_⟩
    · -- one value
      intro flag arrInit v hsz hgood f t ts rest hq hf
      cases v with
      | qnull =>
        simp only [QVal.qenc, List.cons.injEq] at hq
        obtain ⟨h1, h2⟩ := hq
        subst h1; subst h2
        exact ⟨some Token.null, by simp [qpack_process_obj, QVal.toLua]⟩
      | qbool b =>
        cases b <;> simp only [QVal.qenc, if_true, if_false, List.cons.injEq] at hq <;>
          obtain ⟨h1, h2⟩ := hq <;> subst h1 <;> subst h2
        · exact ⟨some Token.qp_false, by simp [qpack_process_obj, QVal.toLua]⟩
        · exact ⟨some Token.qp_true, by simp [qpack_process_obj, QVal.toLua]⟩
      | qint m =>
        simp only [QVal.qenc, List.cons.injEq] at hq
        obtain ⟨h1, h2⟩ := hq
        subst h1; subst h2
        exact ⟨some (Token.int64 m), by simp [qpack_process_obj, QVal.toLua]⟩
      | qdbl q =>
        simp only [QVal.qenc, List.cons.injEq] at hq
        obtain ⟨h1, h2⟩ := hq
        subst h1; subst h2
        exact ⟨some (Token.double q), by simp [qpack_process_obj, QVal.toLua]⟩
      | qstr s =>
        simp only [QVal.qenc, List.cons.injEq] at hq
        obtain ⟨h1, h2⟩ := hq
        subst h1; subst h2
        exact ⟨some (Token.raw (s ++ [0])), by simp [qpack_process_obj, QVal.toLua]⟩
      | qlist es =>
        cases es with
        | nil =>
          cases hflag : flag
          · rw [hflag] at hq
            simp only [QVal.qenc, if_false, Bool.false_eq_true, List.cons.injEq] at hq
            obtain ⟨h1, h2⟩ := hq
            subst h1; subst h2
            have hf2 : 2 ≤ f := by
              rw [hflag] at hf
              simpa [QVal.qenc] using hf
            obtain ⟨g, rfl⟩ : ∃ g, f = g + 1 := ⟨f - 1, by omega⟩
            refine ⟨some Token.mapClose, ?_⟩
            simp only [qpack_process_obj]
            obtain ⟨h, rfl⟩ : ∃ h, g = h + 1 := ⟨g - 1, by omega⟩
            simp [qpack_map_open_loop, qp_next, QVal.toLua, toLuaList]
          · rw [hflag] at hq
            simp only [QVal.qenc, if_true, List.cons.injEq] at hq
            obtain ⟨h1, h2⟩ := hq
            subst h1; subst h2
            have hf2 : 2 ≤ f := by
              rw [hflag] at hf
              simpa [QVal.qenc] using hf
            obtain ⟨g, rfl⟩ : ∃ g, f = g + 1 := ⟨f - 1, by omega⟩
            refine ⟨some Token.arrayClose, ?_⟩
            simp only [qpack_process_obj]
            obtain ⟨h, rfl⟩ : ∃ h, g = h + 1 := ⟨g - 1, by omega⟩
            simp [qpack_array_open_loop, qp_next, QVal.toLua, toLuaList]
        | cons v0 vs =>
          simp only [QVal.qenc, List.cons.injEq] at hq
          obtain ⟨h1, h2⟩ := hq
          subst h1; subst h2
          have hlen : (QVal.qenc flag (.qlist (v0 :: vs))).length =
              (qencList flag (v0 :: vs)).length + 2 := by
            simp [QVal.qenc]
          have hf2 : (qencList flag (v0 :: vs)).length + 2 ≤ f := by
            rw [hlen] at hf; exact hf
          obtain ⟨g, rfl⟩ : ∃ g, f = g + 1 := ⟨f - 1, by omega⟩
          have hsz' : sizeOf (v0 :: vs) ≤ n := by
            simp only [QVal.qlist.sizeOf_spec] at hsz; omega
          have hgl : goodList (v0 :: vs) = true := by simpa [QVal.good] using hgood
          have hloop := ih.2.1 flag arrInit (v0 :: vs) hsz' hgl g 1 [] rest
            (by intro p hp; simp at hp) (by omega)
          refine ⟨some Token.arrayClose, ?_⟩
          simp only [qpack_process_obj]
          rw [show (qencList flag (v0 :: vs) ++ [Token.arrayClose]) ++ rest =
            qencList flag (v0 :: vs) ++ Token.arrayClose :: rest by simp]
          rw [hloop]
          simp [QVal.toLua]
      | qmap ps =>
        cases ps with
        | nil =>
          cases hflag : flag
          · rw [hflag] at hq
            simp only [QVal.qenc, if_false, Bool.false_eq_true, List.cons.injEq] at hq
            obtain ⟨h1, h2⟩ := hq
            subst h1; subst h2
            have hf2 : 2 ≤ f := by
              rw [hflag] at hf
              simpa [QVal.qenc] using hf
            obtain ⟨g, rfl⟩ : ∃ g, f = g + 1 := ⟨f - 1, by omega⟩
            refine ⟨some Token.mapClose, ?_⟩
            simp only [qpack_process_obj]
            obtain ⟨h, rfl⟩ : ∃ h, g = h + 1 := ⟨g - 1, by omega⟩
            simp [qpack_map_open_loop, qp_next, QVal.toLua, toLuaPairs]
          · rw [hflag] at hq
            simp only [QVal.qenc, if_true, List.cons.injEq] at hq
            obtain ⟨h1, h2⟩ := hq
            subst h1; subst h2
            have hf2 : 2 ≤ f := by
              rw [hflag] at hf
              simpa [QVal.qenc] using hf
            obtain ⟨g, rfl⟩ : ∃ g, f = g + 1 := ⟨f - 1, by omega⟩
            refine ⟨some Token.arrayClose, ?_⟩
            simp only [qpack_process_obj]
            obtain ⟨h, rfl⟩ : ∃ h, g = h + 1 := ⟨g - 1, by omega⟩
            simp [qpack_array_open_loop, qp_next, QVal.toLua, toLuaPairs]
        | cons p ps' =>
          simp only [QVal.qenc, List.cons.injEq] at hq
          obtain ⟨h1, h2⟩ := hq
          subst h1; subst h2
          have hlen : (QVal.qenc flag (.qmap (p :: ps'))).length =
              (qencPairs flag (p :: ps')).length + 2 := by
            simp [QVal.qenc]
          have hf2 : (qencPairs flag (p :: ps')).length + 2 ≤ f := by
            rw [hlen] at hf; exact hf
          obtain ⟨g, rfl⟩ : ∃ g, f = g + 1 := ⟨f - 1, by omega⟩
          have hsz' : sizeOf (p :: ps') ≤ n := by
            simp only [QVal.qmap.sizeOf_spec] at hsz; omega
          have hcomp : distinctKeys (p :: ps') = true ∧ goodPairs (p :: ps') = true := by
            have h := hgood
            simp only [QVal.good, Bool.and_eq_true] at h
            tauto
          have hloop := ih.2.2 flag arrInit (p :: ps') hsz' hcomp.2 hcomp.1 g [] rest
            (by intro p' hp'; simp at hp') (by omega)
          refine ⟨some Token.mapClose, ?_⟩
          simp only [qpack_process_obj]
          rw [show (qencPairs flag (p :: ps') ++ [Token.mapClose]) ++ rest =
            qencPairs flag (p :: ps') ++ Token.mapClose :: rest by simp]
          rw [hloop]
          simp [QVal.toLua]
    · -- ARRAY_OPEN loop
      intro flag arrInit es hsz hgood f i acc rest hacc hf
      cases es with
      | nil =>
        obtain ⟨g, rfl⟩ : ∃ g, f = g + 1 := ⟨f - 1, by omega⟩
        simp [qencList, qpack_array_open_loop, qp_next, toLuaList]
      | cons v vs =>
        have hv : v.good = true ∧ goodList vs = true := by
          simpa [goodList, Bool.and_eq_true] using hgood
        rcases hq : v.qenc flag with _ | ⟨t, ts⟩
        · have := qenc_length_pos flag v
          rw [hq] at this
          simp at this
        have hvl : (v.qenc flag).length = ts.length + 1 := by rw [hq]; simp
        have hlenc : (qencList flag (v :: vs)).length =
            (v.qenc flag).length + (qencList flag vs).length := by
          simp [qencList]
        obtain ⟨g, rfl⟩ : ∃ g, f = g + 1 := ⟨f - 1, by omega⟩
        have hne := qenc_head_not_close flag v t ts hq
        have hstream : qencList flag (v :: vs) ++ Token.arrayClose :: rest =
            t :: (ts ++ (qencList flag vs ++ Token.arrayClose :: rest)) := by
          simp [qencList, hq]
        rw [hstream, qpack_array_open_loop_cons arrInit g i acc t _ hne.1]
        have hszv : sizeOf v ≤ n := by
          simp only [List.cons.sizeOf_spec] at hsz; omega
        have hszr : sizeOf vs ≤ n := by
          simp only [List.cons.sizeOf_spec] at hsz
          have : 1 ≤ sizeOf v := by cases v <;> simp
          omega
        obtain ⟨last, hD⟩ := ih.1 flag arrInit v hszv hv.1 g t ts
          (qencList flag vs ++ Token.arrayClose :: rest) hq (by omega)
        rw [hD]
        simp only [Except.bind]
        have hfresh : ∀ p ∈ acc, lua_rawequal p.1 (LuaValue.int i) = false := by
          intro p hp
          obtain ⟨j, hj1, hj2⟩ := hacc p hp
          rw [hj1]
          simp [lua_rawequal]
          omega
        rw [lua_rawset_fresh acc (LuaValue.int i) v.toLua (QVal.toLua_ne_nil v) hfresh]
        have hacc' : ∀ p ∈ acc ++ [(LuaValue.int i, v.toLua)],
            ∃ j : Int, p.1 = LuaValue.int j ∧ j < i + 1 := by
          intro p hp
          rcases List.mem_append.mp hp with hp1 | hp2
          · obtain ⟨j, hj1, hj2⟩ := hacc p hp1
            exact ⟨j, hj1, by omega⟩
          · simp at hp2
            subst hp2
            exact ⟨i, rfl, by omega⟩
        have hloop := ih.2.1 flag arrInit vs hszr hv.2 g (i + 1)
          (acc ++ [(LuaValue.int i, v.toLua)]) rest hacc' (by omega)
        rw [hloop]
        simp [toLuaList, List.append_assoc]
    · -- MAP_OPEN loop
      intro flag arrInit ps hsz hgood hdk f acc rest hacc hf
      cases ps with
      | nil =>
        obtain ⟨g, rfl⟩ : ∃ g, f = g + 1 := ⟨f - 1, by omega⟩
        simp [qencPairs, qpack_map_open_loop, qp_next, toLuaPairs]
      | cons p ps' =>
        obtain ⟨k, v⟩ := p
        have hc : goodKey k = true ∧ v.good = true ∧ goodPairs ps' = true := by
          simpa [goodPairs, Bool.and_eq_true, and_assoc] using hgood
        have hdk' : ps'.all (fun q => !qkeyEq k q.1) = true ∧ distinctKeys ps' = true := by
          simpa [distinctKeys, Bool.and_eq_true] using hdk
        rcases hqv : v.qenc flag with _ | ⟨t2, ts2⟩
        · have := qenc_length_pos flag v
          rw [hqv] at this
          simp at this
        have hszv : sizeOf v ≤ n := by
          simp only [List.cons.sizeOf_spec, Prod.mk.sizeOf_spec] at hsz; omega
        have hszr : sizeOf ps' ≤ n := by
          simp only [List.cons.sizeOf_spec, Prod.mk.sizeOf_spec] at hsz
          have : 1 ≤ sizeOf v := by cases v <;> simp
          omega
        have hvl : (v.qenc flag).length = ts2.length + 1 := by rw [hqv]; simp
        obtain ⟨g, rfl⟩ : ∃ g, f = g + 1 := ⟨f - 1, by omega⟩
        obtain ⟨last2, hDv⟩ := ih.1 flag arrInit v hszv hc.2.1 g t2 ts2
          (qencPairs flag ps' ++ Token.mapClose :: rest) hqv (by
            have : (qencPairs flag ((k, v) :: ps')).length =
                (k.qenc flag).length + (v.qenc flag).length +
                  (qencPairs flag ps').length := by
              simp [qencPairs]; omega
            have hkp := qenc_length_pos flag k
            omega)
        have hfreshk : ∀ p ∈ acc, lua_rawequal p.1 k.toLua = false := by
          intro p hp
          exact hacc p hp (k, v) (List.mem_cons_self _ _)
        have hacc' : ∀ p ∈ acc ++ [(k.toLua, v.toLua)], ∀ q ∈ ps',
            lua_rawequal p.1 (q.1.toLua) = false := by
          intro p hp q hq
          rcases List.mem_append.mp hp with hp1 | hp2
          · exact hacc p hp1 q (List.mem_cons_of_mem _ hq)
          · simp at hp2
            subst hp2
            have hkq : goodKey q.1 = true := goodPairs_keys ps' hc.2.2 q hq
            rw [lua_rawequal_toLua_keys k q.1 hc.1 hkq]
            have := hdk'.1
            simp only [List.all_eq_true] at this
            have h2 := this q hq
            simpa using h2
        have hloop := ih.2.2 flag arrInit ps' hszr hc.2.2 hdk'.2 g
          (acc ++ [(k.toLua, v.toLua)]) rest hacc' (by
            have : (qencPairs flag ((k, v) :: ps')).length =
                (k.qenc flag).length + (v.qenc flag).length +
                  (qencPairs flag ps').length := by
              simp [qencPairs]; omega
            have hkp := qenc_length_pos flag k
            have hvp := qenc_length_pos flag v
            omega)
        cases k with
        | qint m =>
          have hstream : qencPairs flag ((QVal.qint m, v) :: ps') ++ Token.mapClose :: rest =
              Token.int64 m :: ((t2 :: ts2) ++ (qencPairs flag ps' ++ Token.mapClose :: rest)) := by
            simp [qencPairs, QVal.qenc, hqv]
          have hfreshk' : ∀ p ∈ acc, lua_rawequal p.1 (LuaValue.int m) = false := by
            intro p hp
            have h := hfreshk p hp
            simpa [QVal.toLua] using h
          have hset := lua_rawset_fresh acc (LuaValue.int m) v.toLua
            (QVal.toLua_ne_nil v) hfreshk'
          have hloop' := hloop
          simp only [QVal.toLua] at hloop'
          rw [hstream]
          simp only [qpack_map_open_loop, qp_next, qpack_process_obj,
            Bind.bind, Except.bind, List.cons_append]
          rw [hDv]
          simp only [Except.bind]
          rw [hset, hloop']
          simp [toLuaPairs, QVal.toLua, List.append_assoc]
        | qstr s =>
          have hstream : qencPairs flag ((QVal.qstr s, v) :: ps') ++ Token.mapClose :: rest =
              Token.raw (s ++ [0]) ::
                ((t2 :: ts2) ++ (qencPairs flag ps' ++ Token.mapClose :: rest)) := by
            simp [qencPairs, QVal.qenc, hqv]
          have hfreshk' : ∀ p ∈ acc, lua_rawequal p.1 (LuaValue.str s) = false := by
            intro p hp
            have h := hfreshk p hp
            simpa [QVal.toLua] using h
          have hset := lua_rawset_fresh acc (LuaValue.str s) v.toLua
            (QVal.toLua_ne_nil v) hfreshk'
          have hloop' := hloop
          simp only [QVal.toLua] at hloop'
          rw [hstream]
          simp only [qpack_map_open_loop, qp_next, qpack_process_obj,
            Bind.bind, Except.bind, List.cons_append]
          rw [hDv]
          simp only [Except.bind, List.length_append, List.length_singleton,
            Nat.add_sub_cancel, List.take_left]
          rw [hset, hloop']
          simp [toLuaPairs, QVal.toLua, List.append_assoc]
        | qnull => simp [goodKey] at hc
        | qbool b => simp [goodKey] at hc
        | qdbl q => simp [goodKey] at hc
        | qlist es' => simp [goodKey] at hc
        | qmap l => simp [goodKey] at hc

/-- Decoding the encoding of a good QVal returns its Lua image. -/
theorem qpack_decode_qenc (cfg : qpack_config_t) (arrInit : Int) (v : QVal)
    (hgood : v.good = true) :
    qpack_decode cfg arrInit (v.qenc cfg.encode_empty_table_as_array) = .ok v.toLua := by
  rcases hq : v.qenc cfg.encode_empty_table_as_array with _ | ⟨t, ts⟩
  · have h := qenc_length_pos cfg.encode_empty_table_as_array v
    rw [hq] at h
    simp at h
  · obtain ⟨last, hD⟩ := (qpack_process_qenc_bundle (sizeOf v)).1
      cfg.encode_empty_table_as_array arrInit v le_rfl hgood (t :: ts).length t ts [] hq
      (by simp [hq])
    simp only [List.append_nil, List.length_cons] at hD
    simp [qpack_decode, qp_next, Bind.bind, Except.bind, hD]

/-- Claim C4 counterexample: the table with the single entry 2 = true
is a map whose keys are all Int, yet it does not round-trip: the
encoder classifies it as an array of length 2 (max key), emits
ARRAY_OPEN, NULL, TRUE, ARRAY_CLOSE, and decoding that yields the
two-entry table with the null sentinel at index 1 — a different set of
key/value pairs. -/
theorem C4_sparse_map_breaks_roundtrip :
    qpack_encode default_config (.table [(.int 2, .boolean true)]) =
      .ok [Token.arrayOpen, Token.null, Token.qp_true, Token.arrayClose] ∧
    qpack_decode default_config 0
        [Token.arrayOpen, Token.null, Token.qp_true, Token.arrayClose] =
      .ok (.table [(.int 1, .lightuserdata_null), (.int 2, .boolean true)]) ∧
    LuaValue.table [(.int 1, .lightuserdata_null), (.int 2, .boolean true)] ≠
      LuaValue.table [(.int 2, .boolean true)] := by
  refine ⟨?_, ?_, ?_⟩
  · simp [qpack_encode, qpack_append_data, qpack_append_array, lua_array_length,
      lua_array_length_go, lua_rawget, lua_rawequal, default_config,
      Bind.bind, Except.bind]
  · simp [qpack_decode, qpack_process_obj, qpack_array_open_loop, qp_next, lua_rawset,
      lua_rawequal, Bind.bind, Except.bind]
  · simp

/-- Claim C4 amended: round-trip holds for every value in the good
class — scalars, lists of good values, and maps with pairwise-distinct
Int/Str keys that the encoder classifies as maps (empty, or containing
some key that is not a positive integer) — within the encoder's depth
limit: encoding the Lua image succeeds, producing the token encoding,
and decoding it returns exactly the image (lists element-wise in
order, maps pair-for-pair in iteration order).  Tables with only
positive integer keys are re-encoded as arrays and are excluded, as
the counterexample shows they do not round-trip. -/
theorem C4_amended_container_roundtrip :
    ∀ (cfg : qpack_config_t) (arrInit : Int) (v : QVal),
      v.good = true → (v.qdepth : Int) ≤ cfg.encode_max_depth →
      qpack_encode cfg v.toLua = .ok (v.qenc cfg.encode_empty_table_as_array) ∧
      qpack_decode cfg arrInit (v.qenc cfg.encode_empty_table_as_array) =
        .ok v.toLua :=
  fun cfg arrInit v hgood hd =>
    ⟨qpack_encode_qenc cfg v hgood hd, qpack_decode_qenc cfg arrInit v hgood⟩

/-- Witness for the amended C4 at the map containing the single pair
"a" = 5 nested inside a two-element list. -/
theorem C4_amended_container_roundtrip_witness :
    (QVal.qlist [QVal.qmap [(QVal.qstr [97], QVal.qint 5)], QVal.qbool true]).good = true ∧
    (((QVal.qlist [QVal.qmap [(QVal.qstr [97], QVal.qint 5)], QVal.qbool true]).qdepth : Int) ≤
      default_config.encode_max_depth) ∧
    (qpack_encode default_config
        (QVal.qlist [QVal.qmap [(QVal.qstr [97], QVal.qint 5)], QVal.qbool true]).toLua =
      .ok ((QVal.qlist [QVal.qmap [(QVal.qstr [97], QVal.qint 5)], QVal.qbool true]).qenc
        default_config.encode_empty_table_as_array) ∧
     qpack_decode default_config 0
        ((QVal.qlist [QVal.qmap [(QVal.qstr [97], QVal.qint 5)], QVal.qbool true]).qenc
          default_config.encode_empty_table_as_array) =
      .ok (QVal.qlist [QVal.qmap [(QVal.qstr [97], QVal.qint 5)], QVal.qbool true]).toLua) :=
  ⟨by simp [QVal.good, goodList, goodPairs, goodKey, distinctKeys, notCountableKey],
   by simp [QVal.qdepth, qdepthList, qdepthPairs, default_config],
   C4_amended_container_roundtrip default_config 0
     (QVal.qlist [QVal.qmap [(QVal.qstr [97], QVal.qint 5)], QVal.qbool true])
     (by simp [QVal.good, goodList, goodPairs, goodKey, distinctKeys, notCountableKey])
     (by simp [QVal.qdepth, qdepthList, qdepthPairs, default_config])⟩
